import Mathlib

/-!
# Verification of the CNIS text-extraction pipeline (`api_cnis.py`)

Shallow embedding of the text-cleaning pipeline of `api_cnis.py` over
`List Char` (one Lean `Char` per Python code point).  The four stages are
translated function by function:

* `normalizar_espacos`        — whitespace normalizer (lines 20–36);
* `consolidar_linhas_quebradas` — line consolidator (lines 38–77);
* `limpar_cabecalhos_rodapes` — furniture filter (lines 79–105);
* `pipelineLimpeza` / `extrair_texto_cnis` — the orchestrator (lines 140–156),
  with the PDF page producer abstracted as the list of per-page texts
  (an empty list entry stands for a page that yielded no text, mirroring
  the `if texto_pagina:` truthiness test).

Python's `str.strip()` and the regex class `\s` are modelled by the ASCII
whitespace characters (space, tab, newline, carriage return, vertical tab,
form feed); `\d` is modelled by the ASCII digits, via `Char.isDigit`.
All inputs relevant to the specification are within these subsets.
-/

namespace CNIS

/-- ASCII whitespace, modelling Python `str.strip()` / regex `\s`. -/
def pyWhitespace (c : Char) : Bool :=
  c == ' ' || c == '\t' || c == '\n' || c == '\r' || c == '\x0b' || c == '\x0c'

/-- Python `s.strip()`: drop whitespace from both ends. -/
def pstrip (l : List Char) : List Char :=
  ((l.dropWhile pyWhitespace).reverse.dropWhile pyWhitespace).reverse

/-- `re.sub(r' {2,}', ' ', texto)`: collapse every maximal run of two or
more spaces to a single space (realised by repeatedly dropping the first
of any two adjacent spaces). -/
def collapseSpaces : List Char → List Char
  | [] => []
  | [c] => [c]
  | c1 :: c2 :: cs =>
    if c1 == ' ' && c2 == ' ' then collapseSpaces (c2 :: cs)
    else c1 :: collapseSpaces (c2 :: cs)

/-- Python `texto.split('\n')`. -/
def splitLines : List Char → List (List Char)
  | [] => [[]]
  | c :: cs =>
    if c == '\n' then [] :: splitLines cs
    else
      match splitLines cs with
      | [] => [[c]]
      | l :: ls => (c :: l) :: ls

/-- Python `'\n'.join(linhas)`. -/
def joinLines : List (List Char) → List Char
  | [] => []
  | [l] => l
  | l :: ls => l ++ '\n' :: joinLines ls

/-- The blank-line loop of `normalizar_espacos` (lines 27–35): keep
non-empty lines, keep the first empty line of a run and drop the rest.
The flag is `linha_vazia_anterior`. -/
def removerVaziasDuplicadas (anterior : Bool) : List (List Char) → List (List Char)
  | [] => []
  | l :: ls =>
    if l.isEmpty then
      if anterior then removerVaziasDuplicadas true ls
      else [] :: removerVaziasDuplicadas true ls
    else l :: removerVaziasDuplicadas false ls

/-- `normalizar_espacos` (lines 20–36): collapse space runs over the whole
text, split into lines, strip each line, drop duplicated empty lines,
rejoin. -/
def normalizar_espacos (texto : List Char) : List Char :=
  joinLines (removerVaziasDuplicadas false
    ((splitLines (collapseSpaces texto)).map pstrip))

/-- `termos_continuacao` (line 62). -/
def termos_continuacao : List (List Char) :=
  [("DOMÉSTICO".data), ("DOMESTICO".data), ("INDIVIDUAL".data), ("FACULTATIVO".data)]

/-- `re.search(r'\d{2}/\d{2}/\d{4}$', linha)` (line 66): the line ends in
a `DD/MM/YYYY` shape. -/
def endsWithDate (l : List Char) : Bool :=
  match l.reverse with
  | y4 :: y3 :: y2 :: y1 :: s2 :: m2 :: m1 :: s1 :: d2 :: d1 :: _ =>
    y4.isDigit && y3.isDigit && y2.isDigit && y1.isDigit && s2 == '/' &&
      m2.isDigit && m1.isDigit && s1 == '/' && d2.isDigit && d1.isDigit
  | _ => false

/-- `re.search(r'\d+,\d{2}$', linha)` (line 67): the line ends in at least
one digit, a comma, and exactly two digits. -/
def endsWithMoney (l : List Char) : Bool :=
  match l.reverse with
  | c2 :: c1 :: v :: d :: _ => c2.isDigit && c1.isDigit && v == ',' && d.isDigit
  | _ => false

/-- The `while` loop of `consolidar_linhas_quebradas` (lines 47–75):
one-line lookahead, merging the stripped current line with the stripped
next line when the next line is a continuation term and the current line
ends in neither a date nor a money amount; a consumed next line is
skipped.  Empty (after strip) lines are emitted as `''`. -/
def consolidarAux : List (List Char) → List (List Char)
  | [] => []
  | [l] =>
    let atual := pstrip l
    if atual.isEmpty then [[]] else [atual]
  | l :: n :: rest =>
    let atual := pstrip l
    if atual.isEmpty then [] :: consolidarAux (n :: rest)
    else
      let proxima := pstrip n
      if proxima ∈ termos_continuacao ∧ endsWithDate atual = false ∧
          endsWithMoney atual = false then
        (atual ++ ' ' :: proxima) :: consolidarAux rest
      else atual :: consolidarAux (n :: rest)

/-- `consolidar_linhas_quebradas` (lines 38–77). -/
def consolidar_linhas_quebradas (texto : List Char) : List Char :=
  joinLines (consolidarAux (splitLines texto))

/-- Match a literal prefix, returning the remainder on success. -/
def dropPref : List Char → List Char → Option (List Char)
  | [], l => some l
  | _ :: _, [] => none
  | p :: ps, c :: cs => if p == c then dropPref ps cs else none

/-- `r'^Página \d+ de \d+$'` under `re.match`. -/
def matchPagina (s : List Char) : Bool :=
  match dropPref ("Página ".data) s with
  | none => false
  | some r =>
    let ds := r.takeWhile Char.isDigit
    let r1 := r.dropWhile Char.isDigit
    !ds.isEmpty &&
      match dropPref (" de ".data) r1 with
      | none => false
      | some r2 =>
        let ds2 := r2.takeWhile Char.isDigit
        let r3 := r2.dropWhile Char.isDigit
        !ds2.isEmpty && r3.isEmpty

/-- `r'^INSS\s*$'` under `re.match`. -/
def matchINSS (s : List Char) : Bool :=
  match dropPref ("INSS".data) s with
  | none => false
  | some r => r.all pyWhitespace

/-- `r'^CNIS - Cadastro Nacional'` under `re.match` (prefix only). -/
def matchCNIS (s : List Char) : Bool :=
  (dropPref ("CNIS - Cadastro Nacional".data) s).isSome

/-- `r'^Extrato Previdenciário\s*$'` under `re.match`. -/
def matchExtrato (s : List Char) : Bool :=
  match dropPref ("Extrato Previdenciário".data) s with
  | none => false
  | some r => r.all pyWhitespace

/-- `r'^\d{2}/\d{2}/\d{4} \d{2}:\d{2}:\d{2}$'` under `re.match`. -/
def matchTimestamp (s : List Char) : Bool :=
  match s with
  | [d1, d2, s1, m1, m2, s2, y1, y2, y3, y4, sp, h1, h2, c1, i1, i2, c2, g1, g2] =>
    d1.isDigit && d2.isDigit && s1 == '/' && m1.isDigit && m2.isDigit &&
      s2 == '/' && y1.isDigit && y2.isDigit && y3.isDigit && y4.isDigit &&
      sp == ' ' && h1.isDigit && h2.isDigit && c1 == ':' && i1.isDigit &&
      i2.isDigit && c2 == ':' && g1.isDigit && g2.isDigit
  | _ => false

/-- `padroes_ignorar` (lines 85–91), one matcher per regex, in order. -/
def padroes_ignorar : List (List Char → Bool) :=
  [matchPagina, matchINSS, matchCNIS, matchExtrato, matchTimestamp]

/-- The inner pattern loop with `break` (lines 95–99): try the patterns in
order against the stripped line, stopping at the first hit. -/
def ehCabecalhoRodape : List (List Char → Bool) → List Char → Bool
  | [], _ => false
  | p :: ps, s => if p s then true else ehCabecalhoRodape ps s

/-- The line loop of `limpar_cabecalhos_rodapes` (lines 93–103): keep the
original (unstripped) line unless its strip matches a furniture pattern. -/
def limparAux : List (List Char) → List (List Char)
  | [] => []
  | l :: ls =>
    if ehCabecalhoRodape padroes_ignorar (pstrip l) then limparAux ls
    else l :: limparAux ls

/-- `limpar_cabecalhos_rodapes` (lines 79–105). -/
def limpar_cabecalhos_rodapes (texto : List Char) : List Char :=
  joinLines (limparAux (splitLines texto))

/-- The cleaning pipeline of `extrair_texto_cnis` (lines 143–154):
furniture filter, whitespace normalizer, line consolidator, whitespace
normalizer. -/
def pipelineLimpeza (texto : List Char) : List Char :=
  normalizar_espacos (consolidar_linhas_quebradas
    (normalizar_espacos (limpar_cabecalhos_rodapes texto)))

/-- `extrair_texto_cnis` (lines 107–156) with the PDF producer abstracted:
`paginas` is the list of per-page `extract_text` results, an empty list
standing for a falsy (`None` or empty) result, which is skipped by the
`if texto_pagina:` test; pages are joined by `'\n'` and fed to the
cleaning pipeline. -/
def extrair_texto_cnis (paginas : List (List Char)) : List Char :=
  pipelineLimpeza (joinLines (paginas.filter (fun t => !t.isEmpty)))

/-! ## Properties of the building blocks -/

/-- A string with no two adjacent spaces (the fixed points of
`collapseSpaces`). -/
def noTwoSpaces : List Char → Bool
  | c1 :: c2 :: cs => !(c1 == ' ' && c2 == ' ') && noTwoSpaces (c2 :: cs)
  | _ => true

/-- A line sequence with no two adjacent empty lines (the fixed points of
`removerVaziasDuplicadas false` on head-safe inputs). -/
def noAdjEmpty : List (List Char) → Bool
  | l1 :: l2 :: ls => !(l1.isEmpty && l2.isEmpty) && noAdjEmpty (l2 :: ls)
  | _ => true

theorem dropWhile_head_not (p : Char → Bool) :
    ∀ (l : List Char) (c : Char) (t : List Char),
      l.dropWhile p = c :: t → p c = false := by
  intro l
  induction l with
  | nil => intro c t h; simp [List.dropWhile] at h
  | cons a as ih =>
    intro c t h
    rw [List.dropWhile_cons] at h
    split at h
    · exact ih c t h
    · rename_i ha
      cases h
      simpa using ha

theorem dropWhile_eq_self_of_head (p : Char → Bool) (l : List Char)
    (h : ∀ c t, l = c :: t → p c = false) : l.dropWhile p = l := by
  cases l with
  | nil => rfl
  | cons a as => rw [List.dropWhile_cons, h a as rfl]; simp

theorem dropWhile_dropWhile (p : Char → Bool) (l : List Char) :
    (l.dropWhile p).dropWhile p = l.dropWhile p :=
  dropWhile_eq_self_of_head p _ (fun c t h => dropWhile_head_not p l c t h)

theorem dropWhile_decomp (p : Char → Bool) :
    ∀ l : List Char, ∃ u, l = u ++ l.dropWhile p := by
  intro l
  induction l with
  | nil => exact ⟨[], rfl⟩
  | cons a as ih =>
    rw [List.dropWhile_cons]
    split
    · obtain ⟨u, hu⟩ := ih
      exact ⟨a :: u, by rw [List.cons_append, ← hu]⟩
    · exact ⟨[], rfl⟩

theorem pstrip_decomp (l : List Char) :
    ∃ v, l.dropWhile pyWhitespace = pstrip l ++ v := by
  obtain ⟨u, hu⟩ := dropWhile_decomp pyWhitespace (l.dropWhile pyWhitespace).reverse
  refine ⟨u.reverse, ?_⟩
  unfold pstrip
  conv_lhs => rw [← List.reverse_reverse (l.dropWhile pyWhitespace), hu]
  rw [List.reverse_append]

theorem pstrip_head_not (l : List Char) (c : Char) (t : List Char)
    (h : pstrip l = c :: t) : pyWhitespace c = false := by
  obtain ⟨v, hv⟩ := pstrip_decomp l
  exact dropWhile_head_not pyWhitespace l c (t ++ v) (by rw [hv, h, List.cons_append])

theorem pstrip_idem (l : List Char) : pstrip (pstrip l) = pstrip l := by
  have h1 : (pstrip l).dropWhile pyWhitespace = pstrip l :=
    dropWhile_eq_self_of_head _ _ (fun c t h => pstrip_head_not l c t h)
  show ((((pstrip l).dropWhile pyWhitespace).reverse).dropWhile pyWhitespace).reverse = pstrip l
  rw [h1]
  show (((((l.dropWhile pyWhitespace).reverse.dropWhile pyWhitespace).reverse).reverse).dropWhile pyWhitespace).reverse = pstrip l
  rw [List.reverse_reverse, dropWhile_dropWhile]
  rfl

theorem mem_pstrip {c : Char} {l : List Char} (h : c ∈ pstrip l) : c ∈ l := by
  obtain ⟨v, hv⟩ := pstrip_decomp l
  obtain ⟨u, hu⟩ := dropWhile_decomp pyWhitespace l
  have h1 : c ∈ l.dropWhile pyWhitespace := by
    rw [hv]; exact List.mem_append_left _ h
  rw [hu]; exact List.mem_append_right _ h1

theorem nts_tail {c : Char} {cs : List Char}
    (h : noTwoSpaces (c :: cs) = true) : noTwoSpaces cs = true := by
  cases cs with
  | nil => rfl
  | cons d ds => simp only [noTwoSpaces, Bool.and_eq_true] at h; exact h.2

theorem nts_cons_left {c : Char} {cs : List Char} (hc : c ≠ ' ')
    (h : noTwoSpaces cs = true) : noTwoSpaces (c :: cs) = true := by
  cases cs with
  | nil => rfl
  | cons d ds =>
    simp only [noTwoSpaces, Bool.and_eq_true, Bool.not_eq_true']
    refine ⟨?_, h⟩
    have : (c == ' ') = false := by simpa using hc
    simp [this]

theorem nts_append_left :
    ∀ (a b : List Char), noTwoSpaces (a ++ b) = true → noTwoSpaces a = true
  | [], _, _ => rfl
  | [_], _, _ => rfl
  | c1 :: c2 :: a, b, h => by
    simp only [List.cons_append] at h
    simp only [noTwoSpaces, Bool.and_eq_true] at h ⊢
    exact ⟨h.1, nts_append_left (c2 :: a) b (by simpa [noTwoSpaces] using h.2)⟩

theorem nts_dropWhile (p : Char → Bool) :
    ∀ l : List Char, noTwoSpaces l = true → noTwoSpaces (l.dropWhile p) = true := by
  intro l
  induction l with
  | nil => intro h; exact h
  | cons c cs ih =>
    intro h
    rw [List.dropWhile_cons]
    split
    · exact ih (nts_tail h)
    · exact h

theorem nts_pstrip (l : List Char) (h : noTwoSpaces l = true) :
    noTwoSpaces (pstrip l) = true := by
  obtain ⟨v, hv⟩ := pstrip_decomp l
  exact nts_append_left (pstrip l) v (by rw [← hv]; exact nts_dropWhile pyWhitespace l h)

theorem collapse_cons :
    ∀ (c : Char) (cs : List Char), ∃ t, collapseSpaces (c :: cs) = c :: t
  | c, [] => ⟨[], rfl⟩
  | c, c2 :: cs => by
    obtain ⟨t, ht⟩ := collapse_cons c2 cs
    by_cases h : (c == ' ' && c2 == ' ') = true
    · have hc : c = ' ' := by
        have := h; simp only [Bool.and_eq_true, beq_iff_eq] at this; exact this.1
      have hc2 : c2 = ' ' := by
        have := h; simp only [Bool.and_eq_true, beq_iff_eq] at this; exact this.2
      exact ⟨t, by rw [collapseSpaces, if_pos h, ht, hc, hc2]⟩
    · exact ⟨collapseSpaces (c2 :: cs), by rw [collapseSpaces, if_neg h]⟩

theorem nts_collapse : ∀ l : List Char, noTwoSpaces (collapseSpaces l) = true
  | [] => rfl
  | [_] => rfl
  | c1 :: c2 :: cs => by
    rw [collapseSpaces]
    split
    · exact nts_collapse (c2 :: cs)
    · rename_i h
      obtain ⟨t, ht⟩ := collapse_cons c2 cs
      rw [ht]
      simp only [noTwoSpaces, Bool.and_eq_true, Bool.not_eq_true']
      refine ⟨by simpa using h, ?_⟩
      have := nts_collapse (c2 :: cs)
      rw [ht] at this
      exact this

theorem collapse_of_nts : ∀ l : List Char, noTwoSpaces l = true → collapseSpaces l = l
  | [], _ => rfl
  | [_], _ => rfl
  | c1 :: c2 :: cs, h => by
    simp only [noTwoSpaces, Bool.and_eq_true, Bool.not_eq_true'] at h
    rw [collapseSpaces, if_neg (by simp [h.1]), collapse_of_nts (c2 :: cs) h.2]

theorem splitLines_ne_nil : ∀ t : List Char, splitLines t ≠ [] := by
  intro t
  induction t with
  | nil => simp [splitLines]
  | cons c cs ih =>
    rw [splitLines]
    split
    · simp
    · split
      · simp
      · simp

theorem splitLines_head_decomp :
    ∀ t : List Char,
      ∃ rest, splitLines t = (t.takeWhile (fun c => !(c == '\n'))) :: rest := by
  intro t
  induction t with
  | nil => exact ⟨[], rfl⟩
  | cons c cs ih =>
    obtain ⟨rest, hrest⟩ := ih
    rw [splitLines]
    by_cases h : (c == '\n') = true
    · refine ⟨splitLines cs, ?_⟩
      rw [if_pos h, List.takeWhile_cons]
      simp [h]
    · refine ⟨rest, ?_⟩
      rw [if_neg h, hrest, List.takeWhile_cons]
      simp [h]

theorem nts_splitLines :
    ∀ t : List Char, noTwoSpaces t = true →
      ∀ l ∈ splitLines t, noTwoSpaces l = true := by
  intro t
  induction t with
  | nil =>
    intro _ l hl
    simp [splitLines] at hl
    rw [hl]; rfl
  | cons c cs ih =>
    intro h l hl
    rw [splitLines] at hl
    by_cases hc : (c == '\n') = true
    · rw [if_pos hc] at hl
      rcases List.mem_cons.mp hl with h1 | h1
      · rw [h1]; rfl
      · exact ih (nts_tail h) l h1
    · rw [if_neg hc] at hl
      obtain ⟨rest, hrest⟩ := splitLines_head_decomp cs
      rw [hrest] at hl
      rcases List.mem_cons.mp hl with h1 | h1
      · rw [h1]
        have hdec := List.takeWhile_append_dropWhile (fun c => !(c == '\n')) cs
        exact nts_append_left _ (cs.dropWhile (fun c => !(c == '\n')))
          (by rw [List.cons_append, hdec]; exact h)
      · exact ih (nts_tail h) l (by rw [hrest]; exact List.mem_cons_of_mem _ h1)

theorem no_newline_splitLines :
    ∀ (t : List Char) (l : List Char), l ∈ splitLines t → ∀ c ∈ l, c ≠ '\n' := by
  intro t
  induction t with
  | nil =>
    intro l hl c hc
    simp [splitLines] at hl
    rw [hl] at hc
    simp at hc
  | cons a as ih =>
    intro l hl c hc
    rw [splitLines] at hl
    by_cases ha : (a == '\n') = true
    · rw [if_pos ha] at hl
      rcases List.mem_cons.mp hl with h1 | h1
      · rw [h1] at hc; simp at hc
      · exact ih l h1 c hc
    · rw [if_neg ha] at hl
      obtain ⟨rest, hrest⟩ := splitLines_head_decomp as
      rw [hrest] at hl
      rcases List.mem_cons.mp hl with h1 | h1
      · rw [h1] at hc
        rcases List.mem_cons.mp hc with h2 | h2
        · rw [h2]; simpa using ha
        · have := List.mem_takeWhile_imp h2
          simpa using this
      · exact ih l (by rw [hrest]; exact List.mem_cons_of_mem _ h1) c hc

theorem splitLines_single :
    ∀ l : List Char, (∀ c ∈ l, c ≠ '\n') → splitLines l = [l] := by
  intro l
  induction l with
  | nil => intro _; rfl
  | cons c cs ih =>
    intro h
    have hc : (c == '\n') = false := by
      simpa using h c (List.mem_cons_self c cs)
    rw [splitLines, if_neg (by simp [hc]),
      ih (fun d hd => h d (List.mem_cons_of_mem c hd))]

theorem splitLines_append :
    ∀ (l t : List Char), (∀ c ∈ l, c ≠ '\n') →
      splitLines (l ++ '\n' :: t) = l :: splitLines t := by
  intro l
  induction l with
  | nil => intro t _; rw [List.nil_append, splitLines, if_pos (by simp)]
  | cons c cs ih =>
    intro t h
    have hc : (c == '\n') = false := by
      simpa using h c (List.mem_cons_self c cs)
    rw [List.cons_append, splitLines, if_neg (by simp [hc]),
      ih t (fun d hd => h d (List.mem_cons_of_mem c hd))]

theorem splitLines_joinLines :
    ∀ ls : List (List Char), ls ≠ [] → (∀ l ∈ ls, ∀ c ∈ l, c ≠ '\n') →
      splitLines (joinLines ls) = ls
  | [], h, _ => absurd rfl h
  | [l], _, hnl => by
    rw [joinLines, splitLines_single l (hnl l (List.mem_cons_self l []))]
  | l :: l2 :: ls, _, hnl => by
    have hrec := splitLines_joinLines (l2 :: ls) (List.cons_ne_nil l2 ls)
      (fun m hm c hc => hnl m (List.mem_cons_of_mem l hm) c hc)
    show splitLines (l ++ '\n' :: joinLines (l2 :: ls)) = l :: l2 :: ls
    rw [splitLines_append l (joinLines (l2 :: ls))
        (hnl l (List.mem_cons_self l (l2 :: ls))), hrec]

theorem nts_join_cons :
    ∀ (l t : List Char), noTwoSpaces l = true → noTwoSpaces t = true →
      noTwoSpaces (l ++ '\n' :: t) = true
  | [], t, _, h2 => by
    rw [List.nil_append]
    exact nts_cons_left (by decide) h2
  | [c], t, _, h2 => by
    rw [List.cons_append, List.nil_append]
    simp only [noTwoSpaces, Bool.and_eq_true, Bool.not_eq_true']
    exact ⟨by simp, nts_cons_left (by decide) h2⟩
  | c1 :: c2 :: l, t, h1, h2 => by
    simp only [noTwoSpaces, Bool.and_eq_true] at h1
    simp only [List.cons_append, noTwoSpaces, Bool.and_eq_true]
    exact ⟨h1.1, by
      have := nts_join_cons (c2 :: l) t h1.2 h2
      simpa [List.cons_append] using this⟩

theorem nts_joinLines :
    ∀ ls : List (List Char), (∀ l ∈ ls, noTwoSpaces l = true) →
      noTwoSpaces (joinLines ls) = true
  | [], _ => rfl
  | [l], h => by
    show noTwoSpaces l = true
    exact h l (List.mem_cons_self l [])
  | l :: l2 :: ls, h => by
    show noTwoSpaces (l ++ '\n' :: joinLines (l2 :: ls)) = true
    exact nts_join_cons l (joinLines (l2 :: ls)) (h l (List.mem_cons_self _ _))
      (nts_joinLines (l2 :: ls) (fun m hm => h m (List.mem_cons_of_mem l hm)))

theorem rvd_sublist (b : Bool) (ls : List (List Char)) :
    (removerVaziasDuplicadas b ls).Sublist ls := by
  induction ls generalizing b with
  | nil => exact List.Sublist.refl []
  | cons l ls ih =>
    rw [removerVaziasDuplicadas]
    by_cases hl : l.isEmpty = true
    · rw [if_pos hl]
      by_cases hb : b = true
      · rw [if_pos hb]
        exact (ih true).cons l
      · rw [if_neg hb]
        have hl0 : l = [] := List.isEmpty_iff.mp hl
        rw [hl0]
        exact (ih true).cons₂ []
    · rw [if_neg hl]
      exact (ih false).cons₂ l

theorem rvd_true_head_ne :
    ∀ (ls : List (List Char)) (l : List Char) (rest : List (List Char)),
      removerVaziasDuplicadas true ls = l :: rest → l.isEmpty = false := by
  intro ls
  induction ls with
  | nil => intro l rest h; simp [removerVaziasDuplicadas] at h
  | cons a as ih =>
    intro l rest h
    rw [removerVaziasDuplicadas] at h
    by_cases ha : a.isEmpty = true
    · rw [if_pos ha, if_pos rfl] at h
      exact ih l rest h
    · rw [if_neg ha] at h
      cases h
      simpa using ha

theorem nae_cons_of_head (l : List Char) (ls : List (List Char))
    (h : l.isEmpty = false ∨ ∀ l2 rest, ls = l2 :: rest → l2.isEmpty = false)
    (hls : noAdjEmpty ls = true) : noAdjEmpty (l :: ls) = true := by
  cases ls with
  | nil => rfl
  | cons l2 rest =>
    simp only [noAdjEmpty, Bool.and_eq_true, Bool.not_eq_true']
    refine ⟨?_, hls⟩
    rcases h with h | h
    · simp [h]
    · simp [h l2 rest rfl]

theorem nae_tail {l : List Char} {ls : List (List Char)}
    (h : noAdjEmpty (l :: ls) = true) : noAdjEmpty ls = true := by
  cases ls with
  | nil => rfl
  | cons l2 rest =>
    simp only [noAdjEmpty, Bool.and_eq_true] at h
    exact h.2

theorem nae_rvd (ls : List (List Char)) :
    ∀ b : Bool, noAdjEmpty (removerVaziasDuplicadas b ls) = true := by
  induction ls with
  | nil => intro b; rfl
  | cons l ls ih =>
    intro b
    rw [removerVaziasDuplicadas]
    by_cases hl : l.isEmpty = true
    · rw [if_pos hl]
      by_cases hb : b = true
      · rw [if_pos hb]; exact ih true
      · rw [if_neg hb]
        refine nae_cons_of_head [] _ (Or.inr ?_) (ih true)
        intro l2 rest h
        exact rvd_true_head_ne ls l2 rest h
    · rw [if_neg hl]
      exact nae_cons_of_head l _ (Or.inl (by simpa using hl)) (ih false)

theorem rvd_of_nae (ls : List (List Char)) :
    ∀ b : Bool, noAdjEmpty ls = true →
      (b = true → ∀ l2 rest, ls = l2 :: rest → l2.isEmpty = false) →
      removerVaziasDuplicadas b ls = ls := by
  induction ls with
  | nil => intro b _ _; rfl
  | cons l ls ih =>
    intro b hn hb
    rw [removerVaziasDuplicadas]
    by_cases hl : l.isEmpty = true
    · by_cases hbt : b = true
      · exact absurd (hb hbt l ls rfl) (by simp [hl])
      · rw [if_pos hl, if_neg hbt]
        have hl0 : l = [] := List.isEmpty_iff.mp hl
        have hrec : removerVaziasDuplicadas true ls = ls := by
          apply ih true (nae_tail hn)
          intro _ l2 rest hrest
          rw [hrest] at hn
          simp only [noAdjEmpty, Bool.and_eq_true, Bool.not_eq_true',
            Bool.and_eq_false_iff] at hn
          rcases hn.1 with h1 | h1
          · rw [hl] at h1; cases h1
          · exact h1
        rw [hl0, hrec]
    · rw [if_neg hl, ih false (nae_tail hn) (fun h => absurd h (by simp))]

theorem rvd_false_ne_nil (ls : List (List Char)) (hne : ls ≠ []) :
    removerVaziasDuplicadas false ls ≠ [] := by
  cases ls with
  | nil => exact absurd rfl hne
  | cons l ls =>
    rw [removerVaziasDuplicadas]
    by_cases hl : l.isEmpty = true
    · rw [if_pos hl, if_neg Bool.false_ne_true]
      simp
    · rw [if_neg hl]
      simp

theorem map_id_of_mem (f : List Char → List Char) (ls : List (List Char))
    (h : ∀ l ∈ ls, f l = l) : ls.map f = ls := by
  induction ls with
  | nil => rfl
  | cons l ls ih =>
    rw [List.map_cons, h l (List.mem_cons_self _ _),
      ih (fun m hm => h m (List.mem_cons_of_mem _ hm))]

/-- A line sequence made of stripped, space-collapsed, newline-free lines
with no adjacent blanks is a fixed point of the whitespace normalizer. -/
theorem normalizar_fixed (ls : List (List Char)) (hne : ls ≠ [])
    (hfix : ∀ l ∈ ls, pstrip l = l)
    (hnts : ∀ l ∈ ls, noTwoSpaces l = true)
    (hnl : ∀ l ∈ ls, ∀ c ∈ l, c ≠ '\n')
    (hnae : noAdjEmpty ls = true) :
    normalizar_espacos (joinLines ls) = joinLines ls := by
  unfold normalizar_espacos
  rw [collapse_of_nts _ (nts_joinLines ls hnts),
    splitLines_joinLines ls hne hnl,
    map_id_of_mem pstrip ls hfix,
    rvd_of_nae ls false hnae (fun h => absurd h (by simp))]

theorem normalizar_lines_props (t : List Char) :
    ∀ l ∈ removerVaziasDuplicadas false ((splitLines (collapseSpaces t)).map pstrip),
      pstrip l = l ∧ noTwoSpaces l = true ∧ ∀ c ∈ l, c ≠ '\n' := by
  intro l hl
  have hl0 : l ∈ (splitLines (collapseSpaces t)).map pstrip :=
    (rvd_sublist false _).subset hl
  obtain ⟨z, hz, rfl⟩ := List.mem_map.mp hl0
  refine ⟨pstrip_idem z, nts_pstrip z (nts_splitLines _ (nts_collapse t) z hz), ?_⟩
  intro c hc
  exact no_newline_splitLines (collapseSpaces t) z hz c (mem_pstrip hc)

/-- The whitespace normalizer is idempotent (shared between C2 and C7). -/
theorem normalizar_idem_base (t : List Char) :
    normalizar_espacos (normalizar_espacos t) = normalizar_espacos t := by
  have hprops := normalizar_lines_props t
  have hne : removerVaziasDuplicadas false
      ((splitLines (collapseSpaces t)).map pstrip) ≠ [] :=
    rvd_false_ne_nil _
      (fun h => splitLines_ne_nil (collapseSpaces t) (List.map_eq_nil_iff.mp h))
  exact normalizar_fixed _ hne (fun l hl => (hprops l hl).1)
    (fun l hl => (hprops l hl).2.1) (fun l hl => (hprops l hl).2.2)
    (nae_rvd _ false)

/-- Order-preserving consolidation: the output sequence is the source
sequence in order, with some adjacent pairs fused into `l ++ ' ' :: n`.
A fused pair is consumed whole, so no reordering and no triple merge. -/
inductive Consol : List (List Char) → List (List Char) → Prop where
  | nil : Consol [] []
  | keep (l : List Char) {src out : List (List Char)} :
      Consol src out → Consol (l :: src) (l :: out)
  | fuse (l n : List Char) {src out : List (List Char)} :
      Consol src out → Consol (l :: n :: src) ((l ++ ' ' :: n) :: out)

theorem consolidarAux_consol :
    ∀ ls : List (List Char), Consol (ls.map pstrip) (consolidarAux ls)
  | [] => Consol.nil
  | [l] => by
    rw [List.map_cons, List.map_nil]
    show Consol [pstrip l] (if (pstrip l).isEmpty = true then [[]] else [pstrip l])
    by_cases h : (pstrip l).isEmpty = true
    · rw [if_pos h, List.isEmpty_iff.mp h]
      exact Consol.keep [] Consol.nil
    · rw [if_neg h]
      exact Consol.keep _ Consol.nil
  | l :: n :: rest => by
    rw [List.map_cons, List.map_cons]
    show Consol (pstrip l :: pstrip n :: rest.map pstrip)
      (if (pstrip l).isEmpty = true then [] :: consolidarAux (n :: rest)
       else if pstrip n ∈ termos_continuacao ∧ endsWithDate (pstrip l) = false ∧
           endsWithMoney (pstrip l) = false
         then (pstrip l ++ ' ' :: pstrip n) :: consolidarAux rest
         else pstrip l :: consolidarAux (n :: rest))
    by_cases h1 : (pstrip l).isEmpty = true
    · rw [if_pos h1, List.isEmpty_iff.mp h1]
      have hrec := consolidarAux_consol (n :: rest)
      rw [List.map_cons] at hrec
      exact Consol.keep [] hrec
    · rw [if_neg h1]
      by_cases h2 : pstrip n ∈ termos_continuacao ∧ endsWithDate (pstrip l) = false ∧
          endsWithMoney (pstrip l) = false
      · rw [if_pos h2]
        exact Consol.fuse _ _ (consolidarAux_consol rest)
      · rw [if_neg h2]
        have hrec := consolidarAux_consol (n :: rest)
        rw [List.map_cons] at hrec
        exact Consol.keep _ hrec

theorem Consol.ne_nil {src out : List (List Char)} (h : Consol src out)
    (hs : src ≠ []) : out ≠ [] := by
  cases h with
  | nil => exact absurd rfl hs
  | keep l h => simp
  | fuse l n h => simp

theorem Consol.no_newline {src out : List (List Char)} (h : Consol src out)
    (hs : ∀ l ∈ src, ∀ c ∈ l, c ≠ '\n') : ∀ l ∈ out, ∀ c ∈ l, c ≠ '\n' := by
  induction h with
  | nil => intro l hl; simp at hl
  | keep a h ih =>
    intro l hl c hc
    rcases List.mem_cons.mp hl with h1 | h1
    · exact hs a (List.mem_cons_self _ _) c (h1 ▸ hc)
    · exact ih (fun m hm => hs m (List.mem_cons_of_mem _ hm)) l h1 c hc
  | fuse a n h ih =>
    intro l hl c hc
    rcases List.mem_cons.mp hl with h1 | h1
    · rw [h1] at hc
      rcases List.mem_append.mp hc with h2 | h2
      · exact hs a (List.mem_cons_self _ _) c h2
      · rcases List.mem_cons.mp h2 with h3 | h3
        · rw [h3]; decide
        · exact hs n (List.mem_cons_of_mem _ (List.mem_cons_self _ _)) c h3
    · exact ih
        (fun m hm => hs m (List.mem_cons_of_mem _ (List.mem_cons_of_mem _ hm)))
        l h1 c hc

theorem lines_consolidar (x : List Char) :
    splitLines (consolidar_linhas_quebradas x) = consolidarAux (splitLines x) := by
  unfold consolidar_linhas_quebradas
  apply splitLines_joinLines
  · exact Consol.ne_nil (consolidarAux_consol (splitLines x))
      (fun h => splitLines_ne_nil x (List.map_eq_nil_iff.mp h))
  · refine Consol.no_newline (consolidarAux_consol (splitLines x)) ?_
    intro l hl c hc
    obtain ⟨z, hz, rfl⟩ := List.mem_map.mp hl
    exact no_newline_splitLines x z hz c (mem_pstrip hc)

theorem lines_normalizar (x : List Char) :
    splitLines (normalizar_espacos x) =
      removerVaziasDuplicadas false ((splitLines (collapseSpaces x)).map pstrip) := by
  unfold normalizar_espacos
  apply splitLines_joinLines
  · exact rvd_false_ne_nil _ (fun h => splitLines_ne_nil _ (List.map_eq_nil_iff.mp h))
  · intro l hl
    exact (normalizar_lines_props x l hl).2.2

/-- C2 (amended): after one pipeline application there is no remaining
collapsible whitespace — the whitespace normalizer is the identity on the
pipeline's output.  (The full pipeline itself is not idempotent, see the
counterexample: normalization can surface a furniture line the filter
missed, and chained continuation terms can merge further.) -/
theorem c2_normalizacao_fixa_no_pipeline (x : List Char) :
    normalizar_espacos (pipelineLimpeza x) = pipelineLimpeza x :=
  normalizar_idem_base
    (consolidar_linhas_quebradas (normalizar_espacos (limpar_cabecalhos_rodapes x)))

/-- C7: the whitespace normalizer is idempotent on every text. -/
theorem c7_normalizar_idempotente (x : List Char) :
    normalizar_espacos (normalizar_espacos x) = normalizar_espacos x :=
  normalizar_idem_base x

/-- C8: both post-filter stages preserve the relative order of their input
lines.  The normalizer's output line sequence is a sublist of its per-line
normalized input (lines are dropped only as duplicate blanks), and the
consolidator's output is related to its input lines by `Consol`: the input
sequence in order, with some adjacent pairs fused, never reordered. -/
theorem c8_ordem_preservada :
    (∀ x : List Char, (splitLines (normalizar_espacos x)).Sublist
      ((splitLines (collapseSpaces x)).map pstrip))
    ∧ (∀ x : List Char, Consol ((splitLines x).map pstrip)
        (splitLines (consolidar_linhas_quebradas x))) := by
  constructor
  · intro x
    rw [lines_normalizar]
    exact rvd_sublist false _
  · intro x
    rw [lines_consolidar]
    exact consolidarAux_consol _

theorem eh_any (s : List Char) :
    ∀ ps : List (List Char → Bool), ehCabecalhoRodape ps s = ps.any (fun p => p s)
  | [] => rfl
  | p :: ps => by
    rw [ehCabecalhoRodape, List.any_cons]
    by_cases h : p s = true
    · rw [if_pos h, h, Bool.true_or]
    · have hf : p s = false := by simpa using h
      rw [if_neg h, hf, Bool.false_or, eh_any s ps]

theorem limparAux_filter :
    ∀ ls : List (List Char), limparAux ls =
      ls.filter (fun l => !ehCabecalhoRodape padroes_ignorar (pstrip l))
  | [] => rfl
  | l :: ls => by
    rw [limparAux, List.filter_cons]
    by_cases h : ehCabecalhoRodape padroes_ignorar (pstrip l) = true
    · rw [if_pos h, h, Bool.not_true]
      simp only [Bool.false_eq_true, if_false]
      exact limparAux_filter ls
    · have hf : ehCabecalhoRodape padroes_ignorar (pstrip l) = false := by simpa using h
      rw [if_neg h, hf, Bool.not_false]
      simp only [if_true]
      rw [limparAux_filter ls]

theorem limparAux_append :
    ∀ a b : List (List Char), limparAux (a ++ b) = limparAux a ++ limparAux b
  | [], _ => rfl
  | l :: a, b => by
    rw [List.cons_append]
    show (if ehCabecalhoRodape padroes_ignorar (pstrip l) = true then limparAux (a ++ b)
         else l :: limparAux (a ++ b)) =
      (if ehCabecalhoRodape padroes_ignorar (pstrip l) = true then limparAux a
         else l :: limparAux a) ++ limparAux b
    by_cases h : ehCabecalhoRodape padroes_ignorar (pstrip l) = true
    · rw [if_pos h, if_pos h, limparAux_append a b]
    · rw [if_neg h, if_neg h, limparAux_append a b, List.cons_append]

/-- C3: given a non-empty current line and a next line whose trimmed
content is a continuation term, the merge fires exactly when the current
line ends with neither a `DD/MM/YYYY` date nor a `<digits>,<2 digits>`
money amount; concretely `SALARIO 1.234,56` + `DOMÉSTICO` is not merged
while `EMPREGADO` + `DOMÉSTICO` becomes `EMPREGADO DOMÉSTICO`. -/
theorem c3_condicoes_de_exclusao :
    (∀ (l n : List Char) (rest : List (List Char)), pstrip l ≠ [] →
      pstrip n ∈ termos_continuacao →
      (consolidarAux (l :: n :: rest) =
          (pstrip l ++ ' ' :: pstrip n) :: consolidarAux rest ↔
        endsWithDate (pstrip l) = false ∧ endsWithMoney (pstrip l) = false))
    ∧ consolidar_linhas_quebradas ("SALARIO 1.234,56\nDOMÉSTICO".data) =
        ("SALARIO 1.234,56\nDOMÉSTICO".data)
    ∧ consolidar_linhas_quebradas ("EMPREGADO\nDOMÉSTICO".data) =
        ("EMPREGADO DOMÉSTICO".data) := by
  refine ⟨?_, by decide, by decide⟩
  intro l n rest hl hn
  show (if (pstrip l).isEmpty = true then [] :: consolidarAux (n :: rest)
       else if pstrip n ∈ termos_continuacao ∧ endsWithDate (pstrip l) = false ∧
           endsWithMoney (pstrip l) = false
         then (pstrip l ++ ' ' :: pstrip n) :: consolidarAux rest
         else pstrip l :: consolidarAux (n :: rest)) =
      (pstrip l ++ ' ' :: pstrip n) :: consolidarAux rest ↔ _
  rw [if_neg (fun h => hl (List.isEmpty_iff.mp h))]
  by_cases h2 : pstrip n ∈ termos_continuacao ∧ endsWithDate (pstrip l) = false ∧
      endsWithMoney (pstrip l) = false
  · rw [if_pos h2]
    exact iff_of_true rfl ⟨h2.2.1, h2.2.2⟩
  · rw [if_neg h2]
    refine iff_of_false ?_ (fun hcon => h2 ⟨hn, hcon.1, hcon.2⟩)
    intro heq
    simp only [List.cons.injEq] at heq
    have hlen := congrArg List.length heq.1
    rw [List.length_append, List.length_cons] at hlen
    omega

/-- C3 witness: the merge theorem applied to `EMPREGADO` / `DOMÉSTICO`. -/
theorem c3_testemunha :
    consolidarAux [("EMPREGADO".data), ("DOMÉSTICO".data)] =
      [("EMPREGADO DOMÉSTICO".data)] := by
  have h := (c3_condicoes_de_exclusao.1 ("EMPREGADO".data) ("DOMÉSTICO".data) []
    (by decide) (by decide)).mpr (by decide)
  rw [h]
  decide

/-- C4 counterexample: for A empty, B = C = `DOMÉSTICO`, the pass does not
emit `A ++ ' ' ++ B`: it emits `''` and then merges B with C, so the
claim's `for any three consecutive lines A, B, C` fails when A strips to
empty (the code's merge only fires for a non-empty current line). -/
theorem c4_contraexemplo :
    consolidarAux [[], ("DOMÉSTICO".data), ("DOMÉSTICO".data)] =
        [[], ("DOMÉSTICO DOMÉSTICO".data)] ∧
      consolidarAux [[], ("DOMÉSTICO".data), ("DOMÉSTICO".data)] ≠
        ((([] : List Char) ++ ' ' :: ("DOMÉSTICO".data)) ::
          consolidarAux [("DOMÉSTICO".data)]) := by
  decide

/-- C4 (amended: the current line A must also be non-empty after strip):
with three consecutive lines A, B, C where B and C are continuation terms,
A strips to a non-empty line and A has no trailing date or money amount,
the pass emits `A ++ ' ' ++ B` and then processes C separately — C is
never fused into the merged line, which is not re-examined. -/
theorem c4_sem_fusao_tripla (a b c : List Char) (rest : List (List Char))
    (ha : pstrip a ≠ []) (hb : pstrip b ∈ termos_continuacao)
    (_hc : pstrip c ∈ termos_continuacao)
    (hd : endsWithDate (pstrip a) = false)
    (hm : endsWithMoney (pstrip a) = false) :
    consolidarAux (a :: b :: c :: rest) =
      (pstrip a ++ ' ' :: pstrip b) :: consolidarAux (c :: rest) := by
  show (if (pstrip a).isEmpty = true then [] :: consolidarAux (b :: c :: rest)
       else if pstrip b ∈ termos_continuacao ∧ endsWithDate (pstrip a) = false ∧
           endsWithMoney (pstrip a) = false
         then (pstrip a ++ ' ' :: pstrip b) :: consolidarAux (c :: rest)
         else pstrip a :: consolidarAux (b :: c :: rest)) = _
  rw [if_neg (fun h => ha (List.isEmpty_iff.mp h)), if_pos ⟨hb, hd, hm⟩]

/-- C4 witness: `EMPREGADO`, `DOMÉSTICO`, `INDIVIDUAL`. -/
theorem c4_testemunha :
    consolidarAux [("EMPREGADO".data), ("DOMÉSTICO".data), ("INDIVIDUAL".data)] =
      [("EMPREGADO DOMÉSTICO".data), ("INDIVIDUAL".data)] := by
  have h := c4_sem_fusao_tripla ("EMPREGADO".data) ("DOMÉSTICO".data)
    ("INDIVIDUAL".data) [] (by decide) (by decide) (by decide) (by decide) (by decide)
  rw [h]
  decide

/-- C5 (amended): a line for which no merge fires is emitted as its
*stripped* content `pstrip l` (the code appends `linhas[i].strip()`), not
byte-for-byte: leading/trailing whitespace is lost. -/
theorem c5_emissao_sem_fusao (l : List Char) (ls : List (List Char))
    (h : ∀ n rest, ls = n :: rest →
      ¬(pstrip n ∈ termos_continuacao ∧ endsWithDate (pstrip l) = false ∧
        endsWithMoney (pstrip l) = false)) :
    consolidarAux (l :: ls) = pstrip l :: consolidarAux ls := by
  cases ls with
  | nil =>
    show (if (pstrip l).isEmpty = true then [[]] else [pstrip l]) = [pstrip l]
    by_cases he : (pstrip l).isEmpty = true
    · rw [if_pos he, List.isEmpty_iff.mp he]
    · rw [if_neg he]
  | cons n rest =>
    show (if (pstrip l).isEmpty = true then [] :: consolidarAux (n :: rest)
         else if pstrip n ∈ termos_continuacao ∧ endsWithDate (pstrip l) = false ∧
             endsWithMoney (pstrip l) = false
           then (pstrip l ++ ' ' :: pstrip n) :: consolidarAux rest
           else pstrip l :: consolidarAux (n :: rest)) = _
    by_cases he : (pstrip l).isEmpty = true
    · rw [if_pos he, List.isEmpty_iff.mp he]
    · rw [if_neg he, if_neg (h n rest rfl)]

/-- C5 witness: a trailing date blocks the merge and the line is emitted
stripped. -/
theorem c5_testemunha :
    consolidarAux [("01/01/2020".data), ("DOMÉSTICO".data)] =
      ("01/01/2020".data) :: consolidarAux [("DOMÉSTICO".data)] := by
  have h := c5_emissao_sem_fusao ("01/01/2020".data) [("DOMÉSTICO".data)]
    (by intro n rest heq; injection heq with h1 h2; subst h1; decide)
  rw [h]
  decide

/-- C6: the furniture filter is the order-preserving filter dropping
exactly the lines whose trimmed content matches some pattern (the `break`
loop is the disjunction of the five matchers); in particular a line equal
to `Página 3 de 10` is removed whatever surrounds it. -/
theorem c6_filtro_mobiliario :
    (∀ ls : List (List Char), limparAux ls =
      ls.filter (fun l => !(padroes_ignorar.any (fun p => p (pstrip l)))))
    ∧ (∀ ls : List (List Char), (limparAux ls).Sublist ls)
    ∧ (∀ pre post : List (List Char),
        limparAux (pre ++ ("Página 3 de 10".data) :: post) =
          limparAux pre ++ limparAux post) := by
  have hfun : (fun l : List Char => !ehCabecalhoRodape padroes_ignorar (pstrip l)) =
      (fun l : List Char => !(padroes_ignorar.any (fun p => p (pstrip l)))) := by
    funext l
    rw [eh_any]
  refine ⟨?_, ?_, ?_⟩
  · intro ls
    rw [limparAux_filter, hfun]
  · intro ls
    rw [limparAux_filter]
    exact List.filter_sublist ls
  · intro pre post
    rw [limparAux_append pre (("Página 3 de 10".data) :: post)]
    rfl

/-- C9: when every page yields no text the extraction returns the empty
string (no error: the function is total), and falsy pages contribute
nothing to the aggregated text. -/
theorem c9_documento_vazio :
    (∀ paginas : List (List Char), (∀ p ∈ paginas, p = []) →
      extrair_texto_cnis paginas = [])
    ∧ (∀ paginas : List (List Char),
        extrair_texto_cnis paginas =
          extrair_texto_cnis (paginas.filter (fun t => !t.isEmpty))) := by
  constructor
  · intro paginas h
    unfold extrair_texto_cnis
    have hfil : paginas.filter (fun t => !t.isEmpty) = [] := by
      rw [List.filter_eq_nil_iff]
      intro a ha
      rw [h a ha]
      decide
    rw [hfil]
    decide
  · intro paginas
    unfold extrair_texto_cnis
    rw [List.filter_filter]
    have : (fun a : List Char => (!a.isEmpty) && !a.isEmpty) =
        (fun a : List Char => !a.isEmpty) := by
      funext a
      rw [Bool.and_self]
    rw [this]

/-- C9 witness: two empty pages give the empty string. -/
theorem c9_testemunha : extrair_texto_cnis [[], []] = [] :=
  c9_documento_vazio.1 [[], []] (by decide)

/-- C1: on the five-line raw input of the spec's scenario the orchestrated
pipeline returns exactly the two lines `EMPREGADO DOMÉSTICO` and
`01/01/2020 a 31/12/2020`. -/
theorem c1_cenario_pipeline :
    pipelineLimpeza (("CNIS - Cadastro Nacional\nPágina 1 de 2\nEMPREGADO\nDOMÉSTICO\n01/01/2020   a   31/12/2020".data)) =
      ("EMPREGADO DOMÉSTICO\n01/01/2020 a 31/12/2020".data) := by decide

/-- C2 counterexample: the orchestrated pipeline is not idempotent.  On the
single line `Página 1  de 2` (double space) the furniture filter misses the
line, normalization rewrites it to `Página 1 de 2`, and a second pipeline
application removes it, so applying the pipeline twice differs from once. -/
theorem c2_contraexemplo :
    pipelineLimpeza (pipelineLimpeza (("Página 1  de 2".data))) ≠
      pipelineLimpeza (("Página 1  de 2".data)) := by decide

/-- C5 counterexample: a line for which no merge fires is not emitted
byte-for-byte: the consolidator emits the stripped line, so the leading
spaces of `  EMPREGADO` are lost even though no merge happens. -/
theorem c5_contraexemplo :
    consolidar_linhas_quebradas (("  EMPREGADO".data)) ≠ ("  EMPREGADO".data) := by
  decide

/-- C10: a furniture line with irregular internal spacing (`Página 1  de 2`,
double space) is not matched by the furniture patterns, and the pipeline
outputs it as the normalized line `Página 1 de 2`. -/
theorem c10_pagina_espacamento_irregular :
    ehCabecalhoRodape padroes_ignorar (pstrip (("Página 1  de 2".data))) = false ∧
      pipelineLimpeza (("Página 1  de 2".data)) = ("Página 1 de 2".data) := by decide

end CNIS
